import Mathlib

/-!
Verification development for the positional multi-source join engine of
`pytools` (`pytools/join.py`).  The Python code is shallowly embedded:

* a text source (`TextIO`, always seekable here) is its full character
  contents, a `List Char`; stream positions are character offsets;
* Python exceptions are `Except String`; a generator that may raise is
  modelled as the whole produced sequence or the first raised error;
* the column delimiter is a single character (the join command passes a
  one-character delimiter such as `","`); `str.split`, negative indexing
  and slice clamping follow Python semantics;
* `dict[int, ...]` / `defaultdict[str, list]` are association lists in
  insertion order, which is exactly the iteration order Python guarantees.
-/

namespace PytoolsJoin

/-- Character strings, as Python `str` restricted to its character list. -/
abbrev Str := List Char

/-- Decidable equality of `Except` results, for evaluating the model on
concrete inputs. -/
instance {ε α : Type} [DecidableEq ε] [DecidableEq α] : DecidableEq (Except ε α) := fun
  | .error e1, .error e2 =>
    if h : e1 = e2 then isTrue (by rw [h])
    else isFalse (fun c => by cases c; exact h rfl)
  | .error _, .ok _ => isFalse (fun c => Except.noConfusion c)
  | .ok _, .error _ => isFalse (fun c => Except.noConfusion c)
  | .ok a1, .ok a2 =>
    if h : a1 = a2 then isTrue (by rw [h])
    else isFalse (fun c => by cases c; exact h rfl)

/-- Python `s.split(sep)` for a one-character separator: splits on every
occurrence, keeping empty pieces, and returns `[s]` when `sep` does not
occur (`"".split(sep) == [""]`). -/
def pySplit (sep : Char) : Str → List Str
  | [] => [[]]
  | c :: rest =>
    match pySplit sep rest with
    | [] => [[c]]
    | h :: t => if c = sep then [] :: h :: t else (c :: h) :: t

/-- Python `xs[i]` for an `int` index: non-negative indices from the front,
negative indices from the back, `None` here standing for `IndexError`. -/
def pyIndex {α : Type} (xs : List α) (i : Int) : Option α :=
  if 0 ≤ i then xs.get? i.toNat
  else if 0 ≤ (xs.length : Int) + i then xs.get? ((xs.length : Int) + i).toNat
  else none

/-- Python slice `xs[a:b]`: negative bounds count from the back, both bounds
are clamped into `[0, len(xs)]`. -/
def pySlice {α : Type} (xs : List α) (a b : Int) : List α :=
  let n : Int := xs.length
  let a' : Int := if a < 0 then max (n + a) 0 else min a n
  let b' : Int := if b < 0 then max (n + b) 0 else min b n
  (xs.drop a'.toNat).take (b' - a').toNat

/-- Python `xs[a:]`. -/
def pySliceFrom {α : Type} (xs : List α) (a : Int) : List α :=
  pySlice xs a xs.length

/-- Python `xs[:b]`. -/
def pySliceTo {α : Type} (xs : List α) (b : Int) : List α :=
  pySlice xs 0 b

/-- Python `sum(xss, [])`: left fold of list concatenation. -/
def pySum {α : Type} (xss : List (List α)) : List α :=
  xss.foldl (· ++ ·) []

/-- The ASCII whitespace characters stripped by Python `str.rstrip()`
(unicode spaces are not needed for this development). -/
def isPySpace (c : Char) : Bool :=
  c = ' ' || c = '\t' || c = '\n' || c = '\r' || c = Char.ofNat 11 || c = Char.ofNat 12

/-- Python `s.rstrip()`: drop all trailing whitespace characters. -/
def rstrip (s : Str) : Str :=
  (s.reverse.dropWhile isPySpace).reverse

/-- `src.seek(off); src.readline()`: the characters from `off` up to and
including the first newline, or up to the end of the stream. -/
def readlineAt (s : Str) (off : Nat) : Str :=
  let r := s.drop off
  r.takeWhile (fun c => c ≠ '\n') ++ (r.dropWhile (fun c => c ≠ '\n')).take 1

/-- The read loop of `Index.new`: the `tell()` offset recorded before each
`readline()` together with the raw line read (trailing newline included).
`start` is the offset of the current line's first character and `cur` holds
the current line's characters read so far, most recent first. -/
def scanLinesAux : Str → Nat → Str → List (Nat × Str)
  | [], start, cur => if cur.isEmpty then [] else [(start, cur.reverse)]
  | c :: rest, start, cur =>
    if c = '\n' then (start, (c :: cur).reverse) :: scanLinesAux rest (start + cur.length + 1) []
    else scanLinesAux rest start (c :: cur)

/-- All `(offset, raw line)` pairs visited by the scan of `Index.new`. -/
def scanLines (s : Str) : List (Nat × Str) :=
  scanLinesAux s 0 []

/-- Eager effectful map, as a Python list comprehension over fallible calls:
evaluates left to right and propagates the first raised exception. -/
def eMapM {α β : Type} (f : α → Except String β) : List α → Except String (List β)
  | [] => .ok []
  | x :: xs =>
    match f x with
    | .error e => .error e
    | .ok y =>
      match eMapM f xs with
      | .error e => .error e
      | .ok ys => .ok (y :: ys)

/-- First-match lookup in an association list (Python `dict.get`; keys are
unique in every dict this development builds). -/
def assocGet {κ α : Type} [DecidableEq κ] : List (κ × α) → κ → Option α
  | [], _ => none
  | (k, v) :: rest, key => if k = key then some v else assocGet rest key

/-- Python `d[k] = v` on an insertion-ordered dict: overwrite in place if the
key is present, append otherwise. -/
def dictSet {κ α : Type} [DecidableEq κ] : List (κ × α) → κ → α → List (κ × α)
  | [], k, v => [(k, v)]
  | (k0, v0) :: rest, k, v =>
    if k0 = k then (k0, v) :: rest else (k0, v0) :: dictSet rest k v

/-- Insert into an ascending list, for modelling Python `sorted`. -/
def insertSorted (x : Int) : List Int → List Int
  | [] => [x]
  | y :: ys => if x ≤ y then x :: y :: ys else y :: insertSorted x ys

/-- Python `sorted` on `int` keys. -/
def sortInts (l : List Int) : List Int :=
  l.foldr insertSorted []

/-! ## Data model: locations, ranges, targets (join.py lines 25-103) -/

/-- `Location`: source number and column number (Python `int`s). -/
structure Location where
  src : Int
  col : Int
  deriving DecidableEq, Repr

/-- `Location.add_col`. -/
def Location.add_col (l : Location) (diff : Int) : Location :=
  ⟨l.src, l.col + diff⟩

/-- `Location.set_col`. -/
def Location.set_col (l : Location) (col : Int) : Location :=
  ⟨l.src, col⟩

/-- `Location.add_src`. -/
def Location.add_src (l : Location) (diff : Int) : Location :=
  ⟨l.src + diff, l.col⟩

/-- `Location.add`. -/
def Location.add (l : Location) (src_diff col_diff : Int) : Location :=
  ⟨l.src + src_diff, l.col + col_diff⟩

/-- CPython `sys.maxsize` on a 64-bit build, used by `Left.ends`. -/
def sysMaxsize : Int := 2 ^ 63 - 1

/-- The `Range` class hierarchy (`Single`, `Left`, `Right`, `Interval`) as a
sum type. -/
inductive Range where
  | single (loc : Location)
  | left (loc : Location)
  | right (loc : Location)
  | interval (lft rgt : Location)
  deriving DecidableEq, Repr

/-- The zero-based boundary pair computed by each `Range.ends` override. -/
def Range.ends : Range → Location × Location
  | .single loc => (loc.add (-1) (-1), loc)
  | .left loc => (loc.add (-1) (-1), loc.set_col sysMaxsize)
  | .right loc => ((loc.set_col 0).add_src (-1), loc)
  | .interval lft rgt => (lft.add (-1) (-1), rgt)

/-- `Target = list[Range]`. -/
abbrev Target := List Range

/-- `JoinKeyRelation`: in the source this is the `Interval` dataclass reused
with its `left`/`right` fields; embedded as a structure with those fields. -/
structure JoinKeyRelation where
  left : Location
  right : Location
  deriving DecidableEq, Repr

/-- `JoinKey = list[JoinKeyRelation]`. -/
abbrev JoinKey := List JoinKeyRelation

/-! ## DSL parser (join.py lines 106-223)

The source delegates lexing to `pyparsing` with the grammar written in the
`parse_target`/`parse_joinkey` docstrings: `location := natural "." natural`,
`range := interval ^ right ^ left ^ single` (longest match), lists delimited
by `","`, a whole-string match.  Since `","`, `"-"`, `"="` and `"."` never
occur inside a `natural`, that grammar is deterministic and is embedded here
by splitting on the three separator characters; the token-shape dispatch and
all validation are then those of `Parser.__to_range`/`__to_location`. -/

/-- The character of a decimal digit. -/
def digitToChar (d : Nat) : Char := Char.ofNat (48 + d)

/-- Decimal representation of `n`, most significant digit first; the first
argument is recursion fuel (`n` itself suffices for any positive `n`). -/
def natStrAux : Nat → Nat → Str
  | 0, _ => []
  | _ + 1, 0 => []
  | f + 1, n + 1 => natStrAux f ((n + 1) / 10) ++ [digitToChar ((n + 1) % 10)]

/-- Decimal representation of a natural number, as the DSL writes it. -/
def natStr (n : Nat) : Str :=
  if n = 0 then ['0'] else natStrAux n n

/-- `pp.common.integer`: a token is a nonempty digit run, converted to its
numeric value; anything else fails the grammar match. -/
def parseNatDigits (s : Str) : Except String Nat :=
  if s ≠ [] ∧ s.all Char.isDigit then
    .ok (s.foldl (fun a c => 10 * a + (c.toNat - 48)) 0)
  else .error "Parse error: not an integer"

/-- Lexes one `location` token group, `natural "." natural`. -/
def locTok (q : Str) : Except String (Nat × Nat) :=
  match pySplit '.' q with
  | [a, b] =>
    match parseNatDigits a, parseNatDigits b with
    | .ok x, .ok y => .ok (x, y)
    | _, _ => .error "Parse error: invalid location tokens"
  | _ => .error "Parse error: invalid location tokens"

/-- `Parser.__to_location`: validates `src >= 1` and `col >= 1` (the lexed
naturals are non-negative, so only zero can fail). -/
def to_location (s c : Nat) : Except String Location :=
  if s < 1 then .error "Invalid location: Non natural src"
  else if c < 1 then .error "Invalid location: Non natural col"
  else .ok ⟨(s : Int), (c : Int)⟩

/-- One token of a lexed `range`: a location group or the literal `"-"`. -/
inductive RTok where
  | lc (src col : Nat)
  | dash
  deriving DecidableEq, Repr

/-- Lexes one `range` alternative into its token list: the pieces around the
(at most one) `"-"` must each be a location, and an absent side of the `"-"`
contributes no token (so `"s.c"`, `"s.c-"`, `"-s.c"` and `"s.c-s.c"` yield
the one-, two- and three-token shapes `Parser.__to_range` dispatches on). -/
def rangeToks (p : Str) : Except String (List RTok) :=
  match pySplit '-' p with
  | [a] =>
    match locTok a with
    | .ok g => .ok [RTok.lc g.1 g.2]
    | .error e => .error e
  | [a, b] =>
    match
      (if a.isEmpty then .ok [RTok.dash]
       else match locTok a with
            | .ok g => .ok [RTok.lc g.1 g.2, RTok.dash]
            | .error e => .error e : Except String (List RTok)) with
    | .error e => .error e
    | .ok ta =>
      match
        (if b.isEmpty then .ok []
         else match locTok b with
              | .ok g => .ok [RTok.lc g.1 g.2]
              | .error e => .error e : Except String (List RTok)) with
      | .error e => .error e
      | .ok tb => .ok (ta ++ tb)
  | _ => .error "Parse error: invalid range"

/-- `Parser.__to_range`: dispatch on the token-list shape (length, then which
position carries the `"-"`), validating each location group; a `"-"` where a
location group is expected fails as `__to_location` does on the string
`"-"`. -/
def to_range (xs : List RTok) : Except String Range :=
  match xs with
  | [RTok.lc s c] =>
    match to_location s c with
    | .ok loc => .ok (Range.single loc)
    | .error e => .error e
  | [RTok.dash] => .error "Invalid location: -"
  | [RTok.dash, RTok.lc s c] =>
    match to_location s c with
    | .ok loc => .ok (Range.right loc)
    | .error e => .error e
  | [RTok.lc s c, RTok.dash] =>
    match to_location s c with
    | .ok loc => .ok (Range.left loc)
    | .error e => .error e
  | [RTok.dash, RTok.dash] => .error "Invalid left or right"
  | [RTok.lc s1 c1, RTok.dash, RTok.lc s2 c2] =>
    match to_location s1 c1 with
    | .error e => .error e
    | .ok lft =>
      match to_location s2 c2 with
      | .error e => .error e
      | .ok rgt => .ok (Range.interval lft rgt)
  | _ => .error "Unknown range"

/-- `Parser.parse_target`: comma-separated ranges, whole string consumed;
any failure is reported as the single target parse error. -/
def parse_target (value : Str) : Except String Target :=
  match eMapM (fun p =>
      match rangeToks p with
      | .error e => .error e
      | .ok toks => to_range toks) (pySplit ',' value) with
  | .error _ => .error "Parse target error"
  | .ok r => .ok r

/-- One `relation` of the joinkey grammar: `location "=" location`, each
location validated by `__to_location` (via `__to_interval`). -/
def parseRelation (p : Str) : Except String JoinKeyRelation :=
  match pySplit '=' p with
  | [a, b] =>
    match locTok a, locTok b with
    | .ok ga, .ok gb =>
      match to_location ga.1 ga.2 with
      | .error e => .error e
      | .ok lft =>
        match to_location gb.1 gb.2 with
        | .error e => .error e
        | .ok rgt => .ok ⟨lft, rgt⟩
    | _, _ => .error "Parse error: invalid relation"
  | _ => .error "Parse error: invalid relation"

/-- The parsing stage of `Parser.parse_joinkey`, before the same-src
validation loop. -/
def parseJoinkeyRels (value : Str) : Except String JoinKey :=
  eMapM parseRelation (pySplit ',' value)

/-- `Parser.parse_joinkey`: parse all relations, then fail if any relation
relates a source to itself; any failure is the single joinkey parse error. -/
def parse_joinkey (value : Str) : Except String JoinKey :=
  match parseJoinkeyRels value with
  | .error _ => .error "Parse joinkey error"
  | .ok r =>
    if r.any (fun x => x.left.src = x.right.src) then .error "Parse joinkey error"
    else .ok r

/-! ## Index and index cache (join.py lines 226-380)

An `Index` keeps its source stream and key function as fields, plus the
key-to-items map in first-seen key order with per-bucket insertion order.
The source's key functions may raise, hence `Str → Except String Str`.
`Index.get`'s opportunistic deletion of an empty bucket is pure state
hygiene (no join path ever empties a bucket, `Index.delete` is never called
by the engine), so `get` is embedded by its returned value. The index cache
memoizes construction per location; since construction is deterministic and
the join engine never mutates an index, the cache is embedded as on-demand
reconstruction. -/

/-- `IndexItem`: key and byte offset of the line start. -/
structure IndexItem where
  key : Str
  offset : Nat
  deriving DecidableEq, Repr

/-- `ScannedIndexItem`: re-read line text plus the item it came from. -/
structure ScannedIndexItem where
  line : Str
  index : IndexItem
  deriving DecidableEq, Repr

/-- `Index`: source stream, key function, and the `defaultdict(list)`
key-to-items map as an insertion-ordered association list. -/
structure Index where
  src : Str
  key : Str → Except String Str
  buckets : List (Str × List IndexItem)

/-- `Index.add`: `self.__index[item.key].append(item)` — append to the
existing bucket, or append a new singleton bucket for a first-seen key. -/
def addItem : List (Str × List IndexItem) → IndexItem → List (Str × List IndexItem)
  | [], it => [(it.key, [it])]
  | (k, xs) :: rest, it =>
    if k = it.key then (k, xs ++ [it]) :: rest else (k, xs) :: addItem rest it

/-- `Index.new`: scan the whole source, recording for each line its start
offset, and keying the rstripped line text; a raised key error aborts
construction. (The model's sources are always seekable, so the seekability
precondition of the Python code holds by construction.) -/
def Index.new (src : Str) (key : Str → Except String Str) : Except String Index :=
  match eMapM (fun p =>
      match key (rstrip p.2) with
      | .error e => .error e
      | .ok k => .ok (IndexItem.mk k p.1)) (scanLines src) with
  | .error e => .error e
  | .ok items => .ok ⟨src, key, items.foldl addItem []⟩

/-- `Index.get`: the bucket for `key`, with "missing" and "empty" both
reported as absent. -/
def Index.get (idx : Index) (k : Str) : Option (List IndexItem) :=
  match assocGet idx.buckets k with
  | none => none
  | some [] => none
  | some xs => some xs

/-- `Index.items`: every stored item, in bucket order. -/
def Index.itemsList (idx : Index) : List IndexItem :=
  idx.buckets.flatMap Prod.snd

/-- `Index.read`: seek to the item's offset, read one line, rstrip it. -/
def Index.read (idx : Index) (item : IndexItem) : ScannedIndexItem :=
  ⟨rstrip (readlineAt idx.src item.offset), item⟩

/-- The sources and delimiter a join run is configured with (the state of
`IndexCache` plus the delimiter threaded to every component). -/
structure JoinConfig where
  srcs : List Str
  delim : Char

/-- `IndexCache.__index_key`: `line -> line.split(delimiter)[col]`, raising
when the line has too few columns. -/
def indexKeyFn (col : Int) (delim : Char) : Str → Except String Str := fun line =>
  match pyIndex (pySplit delim line) col with
  | some x => .ok x
  | none => .error "New key error"

/-- `IndexCache.get`: range-check the source index, then build (or reuse —
observationally the same here) the index over that source and column. -/
def indexCacheGet (cfg : JoinConfig) (loc : Location) : Except String Index :=
  if 0 ≤ loc.src ∧ loc.src < (cfg.srcs.length : Int) then
    Index.new (cfg.srcs.getD loc.src.toNat []) (indexKeyFn loc.col cfg.delim)
  else .error "Out of range"

/-! ## Partial rows (join.py lines 383-426) -/

/-- `JoinItem`: a source index (zero-based) and the matched index item. -/
structure JoinItem where
  src : Int
  index : IndexItem
  deriving DecidableEq, Repr

/-- `JoinItemList`: the `dict[int, JoinItem]` of one partial row, in
insertion order. -/
structure JoinItemList where
  entries : List (Int × JoinItem)
  deriving DecidableEq, Repr

/-- `JoinItemList.get`. -/
def JoinItemList.get (d : JoinItemList) (src : Int) : Option JoinItem :=
  assocGet d.entries src

/-- `JoinItemList.set`: `self.__items[item.src] = item`. -/
def JoinItemList.set (d : JoinItemList) (item : JoinItem) : JoinItemList :=
  ⟨dictSet d.entries item.src item⟩

/-- `JoinItemList.keys`: the bound source indices in ascending order. -/
def JoinItemList.keys (d : JoinItemList) : List Int :=
  sortInts (d.entries.map Prod.fst)

/-- `dict.values()` of a partial row, in insertion order. -/
def JoinItemList.values (d : JoinItemList) : List JoinItem :=
  d.entries.map Prod.snd

/-- The `JoinItemList(items)` constructor: the dict comprehension
`{x.src: x for x in items}`. -/
def JoinItemList.fromItems (items : List JoinItem) : JoinItemList :=
  ⟨items.foldl (fun acc x => dictSet acc x.src x) []⟩

/-- `JoinItemList.copy`: `JoinItemList(list(self.__items.values()))` — a new
container rebuilt from the current bindings. -/
def JoinItemList.copy (d : JoinItemList) : JoinItemList :=
  JoinItemList.fromItems d.values

/-- `JoinResult = list[JoinItemList]`. -/
abbrev JoinResult := List JoinItemList

/-! ## Relation joiner (join.py lines 429-557) -/

/-- `RelationJoiner.__get_index`: any cache failure is re-raised as a
missing-index error. -/
def get_index (cfg : JoinConfig) (loc : Location) : Except String Index :=
  match indexCacheGet cfg loc with
  | .ok i => .ok i
  | .error _ => .error "Missing index"

/-- `RelationJoiner.__full_join`: for every left item, every right item under
the same key yields one fresh two-binding row; a key with no right bucket is
skipped. -/
def full_join (cfg : JoinConfig) (rel : JoinKeyRelation) : Except String JoinResult :=
  let lkey := rel.left.add (-1) (-1)
  let rkey := rel.right.add (-1) (-1)
  match get_index cfg lkey with
  | .error e => .error e
  | .ok lindex =>
    match get_index cfg rkey with
    | .error e => .error e
    | .ok rindex =>
      .ok (lindex.itemsList.flatMap fun litem =>
        match rindex.get litem.key with
        | none => []
        | some ritems =>
          let r := JoinItemList.set ⟨[]⟩ ⟨lkey.src, litem⟩
          ritems.map fun ritem => JoinItemList.set r.copy ⟨rkey.src, ritem⟩)

/-- The per-row `match (row.get(lkey.src), row.get(rkey.src))` body of the
incremental join: the rows it contributes to the output, or the exception it
raises. An unbound pair contributes nothing (`pass`); one bound side re-reads
its key and fans out over the other side's bucket; two bound sides act as an
equality filter. -/
def processRow (lsrc rsrc : Int) (lindex rindex : Index) (row : JoinItemList) :
    Except String JoinResult :=
  match row.get lsrc, row.get rsrc with
  | none, none => .ok []
  | some lrow, none =>
    match lindex.key (lindex.read lrow.index).line with
    | .error e => .error e
    | .ok k =>
      match rindex.get k with
      | none => .ok []
      | some ritems =>
        .ok (ritems.map fun ritem => JoinItemList.set row.copy ⟨rsrc, ritem⟩)
  | none, some rrow =>
    match rindex.key (rindex.read rrow.index).line with
    | .error e => .error e
    | .ok k =>
      match lindex.get k with
      | none => .ok []
      | some litems =>
        .ok (litems.map fun litem => JoinItemList.set row.copy ⟨lsrc, litem⟩)
  | some lrow, some rrow =>
    match lindex.key (lindex.read lrow.index).line with
    | .error e => .error e
    | .ok lk =>
      match rindex.key (rindex.read rrow.index).line with
      | .error e => .error e
      | .ok rk => .ok (if lk = rk then [row] else [])

/-- The `for row in rows` loop of `RelationJoiner.join` over an incoming
stream, carrying `is_initial` and `row_srcs` exactly as the source does: the
first branch refreshes `row_srcs` whenever `is_initial` is true, the
consistency branch raises only when `is_initial` is false — and nothing in
the loop ever sets `is_initial` to false. -/
def joinLoop (lsrc rsrc : Int) (lindex rindex : Index) :
    Bool → Option (List Int) → List JoinItemList → Except String JoinResult
  | _, _, [] => .ok []
  | isInit, rowSrcs, row :: rest =>
    if isInit = false ∧ some row.keys ≠ rowSrcs then .error "Inconsistent columns"
    else
      match processRow lsrc rsrc lindex rindex row with
      | .error e => .error e
      | .ok out =>
        match joinLoop lsrc rsrc lindex rindex isInit
            (if isInit then some row.keys else rowSrcs) rest with
        | .error e => .error e
        | .ok outRest => .ok (out ++ outRest)

/-- `RelationJoiner.join`: full join when no rows are given, otherwise the
incremental join loop over the incoming rows. -/
def RelationJoiner.join (cfg : JoinConfig) (rel : JoinKeyRelation)
    (rows : Option (List JoinItemList)) : Except String JoinResult :=
  match rows with
  | none => full_join cfg rel
  | some rs =>
    let lkey := rel.left.add (-1) (-1)
    let rkey := rel.right.add (-1) (-1)
    match get_index cfg lkey with
    | .error e => .error e
    | .ok lindex =>
      match get_index cfg rkey with
      | .error e => .error e
      | .ok rindex => joinLoop lkey.src rkey.src lindex rindex true none rs

/-! ## Joiner (join.py lines 560-587) -/

/-- The relation-chaining loop of `Joiner.join`: thread each relation's
output as the next relation's input, starting from `None`. -/
def joinerLoop (cfg : JoinConfig) (acc : Option (List JoinItemList)) :
    JoinKey → Except String (Option JoinResult)
  | [] => .ok acc
  | rel :: rest =>
    match RelationJoiner.join cfg rel acc with
    | .error e => .error e
    | .ok out => joinerLoop cfg (some out) rest

/-- `Joiner.join`: an empty join key is rejected before any join work; a
nonempty chain's final output is the last relation's output (the fold always
produces `some` for a nonempty key, so the final default is unreachable). -/
def Joiner.join (cfg : JoinConfig) (join_key : JoinKey) : Except String JoinResult :=
  if join_key.length = 0 then .error "Join key is empty"
  else
    match joinerLoop cfg none join_key with
    | .error e => .error e
    | .ok r => .ok (r.getD [])

/-! ## Selector (join.py lines 590-620) -/

/-- The `in_src_range` closure of `select_columns`. -/
def in_src_range (column_list : List (List Str)) (src : Int) : Bool :=
  0 ≤ src ∧ src < (column_list.length : Int)

/-- The inner `select` closure of `select_columns`: boundary computation,
source-range validation, then dispatch on how many source rows the span
covers. -/
def selectRange (column_list : List (List Str)) (rng : Range) :
    Except String (List Str) :=
  let l := rng.ends.1
  let r := rng.ends.2
  if in_src_range column_list l.src ∧ in_src_range column_list (r.src - 1) then
    match pySlice column_list l.src r.src with
    | [] => .ok []
    | [s0] => .ok (pySlice s0 l.col r.col)
    | [s0, s1] => .ok (pySliceFrom s0 l.col ++ pySliceTo s1 r.col)
    | s0 :: s1 :: s2 :: rest =>
      .ok (pySliceFrom s0 l.col
        ++ pySum (pySlice (s0 :: s1 :: s2 :: rest) 1 (r.src - 1))
        ++ pySliceTo ((s0 :: s1 :: s2 :: rest).getLastD []) r.col)
  else .error "Out of source range"

/-- `select_columns`: select every range of the target and concatenate the
results in target order. -/
def select_columns (target : Target) (column_list : List (List Str)) :
    Except String (List Str) :=
  match eMapM (selectRange column_list) target with
  | .error e => .error e
  | .ok xss => .ok (pySum xss)

/-! ## An object store for `JoinItemList` aliasing questions

Python rows are heap objects; `copy` allocates a new dict while `set`
mutates one in place.  To state aliasing properties the heap is made
explicit: a store of row objects addressed by allocation index, with the
copy and set methods acting on addresses. -/

/-- A store of `JoinItemList` objects; an address is a list index. -/
abbrev RowStore := List JoinItemList

/-- Dereference an address (an out-of-store address reads as an empty row;
the theorems only use valid addresses). -/
def RowStore.cell (st : RowStore) (r : Nat) : JoinItemList :=
  st.getD r ⟨[]⟩

/-- `row.copy()` on the store: allocate a fresh object built by the
`JoinItemList(list(values))` constructor, returning the new store and the
fresh address. -/
def RowStore.copyOp (st : RowStore) (r : Nat) : RowStore × Nat :=
  (st ++ [JoinItemList.fromItems (st.cell r).values], st.length)

/-- `row.set(item)` on the store: mutate the object at `r` in place. -/
def RowStore.setOp (st : RowStore) (r : Nat) (item : JoinItem) : RowStore :=
  st.set r ((st.cell r).set item)

/-- Well-formedness every reachable row dict enjoys: each entry is keyed by
its item's `src` field, and keys are unique. -/
def JoinItemList.WFDict (d : JoinItemList) : Prop :=
  (∀ p ∈ d.entries, p.2.src = p.1) ∧ (d.entries.map Prod.fst).Nodup

instance (d : JoinItemList) : Decidable d.WFDict := by
  unfold JoinItemList.WFDict; infer_instance

/-! ## Spec-side comparison definitions -/

/-- Modelled from the spec: "the original line text modulo trailing newline
stripping" — the raw line with one trailing newline removed, used to compare
against what `Index.read` actually returns. -/
def stripTrailingNewline (s : Str) : Str :=
  if s.getLast? = some '\n' then s.dropLast else s

/-- The right-index items matching a key: the bucket `Index.get` reports, or
nothing when the key is absent. -/
def matchItems (idx : Index) (k : Str) : List IndexItem :=
  (idx.get k).getD []

/-- The row `__full_join` emits for one left/right item pair: a fresh row
bound at the left source, copied, then bound at the right source. -/
def fullJoinRow (lsrc : Int) (litem : IndexItem) (rsrc : Int) (ritem : IndexItem) :
    JoinItemList :=
  JoinItemList.set (JoinItemList.set ⟨[]⟩ ⟨lsrc, litem⟩).copy ⟨rsrc, ritem⟩

/-- A range's boundaries lie within the source range of `column_list`
(the validation `select_columns` performs). -/
def rangeInSrcRange (column_list : List (List Str)) (rng : Range) : Prop :=
  in_src_range column_list rng.ends.1.src = true ∧
    in_src_range column_list (rng.ends.2.src - 1) = true

instance (column_list : List (List Str)) (rng : Range) :
    Decidable (rangeInSrcRange column_list rng) := by
  unfold rangeInSrcRange; infer_instance

/-! ## Concrete instances used by witnesses and counterexamples -/

/-- Two one-line sources, comma-delimited. -/
def cfgA : JoinConfig := ⟨["a\n".toList, "b\n".toList], ','⟩

/-- The relation `1.1=2.1`. -/
def relA : JoinKeyRelation := ⟨⟨1, 1⟩, ⟨2, 1⟩⟩

/-- A partial row binding only source index 5 (neither side of `relA`). -/
def rowFive : JoinItemList := ⟨[(5, ⟨5, ⟨"x".toList, 0⟩⟩)]⟩

/-- A partial row binding only source index 6. -/
def rowSix : JoinItemList := ⟨[(6, ⟨6, ⟨"y".toList, 0⟩⟩)]⟩

/-- Two two-line single-key sources: key `p` occurs twice on each side. -/
def cfgDup : JoinConfig := ⟨["p,1\np,2".toList, "p,8\np,9".toList], ','⟩

/-- A four-row column list of one-column sources. -/
def clFour : List (List Str) :=
  [["a".toList], ["b".toList], ["c".toList], ["d".toList]]

/-- A source whose only line carries a trailing space before its newline. -/
def srcTrail : Str := "a \n".toList

/-- A one-object row store holding a well-formed row. -/
def storeOne : RowStore := [⟨[(0, ⟨0, ⟨"k".toList, 0⟩⟩)]⟩]

/-- The index built over `srcTrail` keyed by its first comma column. -/
def idxTrail : Index := ⟨srcTrail, indexKeyFn 0 ',', [("a".toList, [⟨"a".toList, 0⟩])]⟩

/-- The full cross product per key that joining `cfgDup` on `relA` emits. -/
def outDup : JoinResult :=
  [⟨[(0, ⟨0, ⟨"p".toList, 0⟩⟩), (1, ⟨1, ⟨"p".toList, 0⟩⟩)]⟩,
   ⟨[(0, ⟨0, ⟨"p".toList, 0⟩⟩), (1, ⟨1, ⟨"p".toList, 4⟩⟩)]⟩,
   ⟨[(0, ⟨0, ⟨"p".toList, 4⟩⟩), (1, ⟨1, ⟨"p".toList, 0⟩⟩)]⟩,
   ⟨[(0, ⟨0, ⟨"p".toList, 4⟩⟩), (1, ⟨1, ⟨"p".toList, 4⟩⟩)]⟩]

/-! ## General lemmas -/

/-- With `is_initial` still true (which it always is — nothing ever clears
it), the carried `row_srcs` value is never consulted: the loop result does
not depend on it. -/
theorem joinLoop_initial_irrelevant (lsrc rsrc : Int) (lindex rindex : Index)
    (rows : List JoinItemList) (rs1 rs2 : Option (List Int)) :
    joinLoop lsrc rsrc lindex rindex true rs1 rows =
      joinLoop lsrc rsrc lindex rindex true rs2 rows := by
  cases rows with
  | nil => rfl
  | cons row rest => simp [joinLoop]

/-- Dropping a row bound at neither relation side from the incoming stream
does not change the loop's outcome (while `is_initial` is true). -/
theorem joinLoop_drop_unbound (lsrc rsrc : Int) (lindex rindex : Index)
    (row : JoinItemList) (hl : row.get lsrc = none) (hr : row.get rsrc = none)
    (rows2 : List JoinItemList) :
    ∀ (rows1 : List JoinItemList) (rs : Option (List Int)),
      joinLoop lsrc rsrc lindex rindex true rs (rows1 ++ row :: rows2) =
        joinLoop lsrc rsrc lindex rindex true rs (rows1 ++ rows2) := by
  intro rows1
  induction rows1 with
  | nil =>
    intro rs
    have hp : processRow lsrc rsrc lindex rindex row = .ok [] := by
      unfold processRow
      rw [hl, hr]
    have hinv := joinLoop_initial_irrelevant lsrc rsrc lindex rindex rows2 (some row.keys) rs
    simp [List.nil_append, joinLoop, hp, hinv]
    rcases hx : joinLoop lsrc rsrc lindex rindex true rs rows2 with e | r <;> simp [hx]
  | cons r0 rest ih =>
    intro rs
    simp only [List.cons_append, joinLoop]
    simp [ih]

/-- Mapping a fallible function over a concatenation succeeds with the
concatenated results when it succeeds on both halves. -/
theorem eMapM_append_ok {α β : Type} (f : α → Except String β) {t1 t2 : List α}
    {a b : List β} (h1 : eMapM f t1 = .ok a) (h2 : eMapM f t2 = .ok b) :
    eMapM f (t1 ++ t2) = .ok (a ++ b) := by
  induction t1 generalizing a with
  | nil =>
    simp only [eMapM] at h1
    injection h1 with h1
    subst h1
    simpa using h2
  | cons x xs ih =>
    simp only [eMapM, List.cons_append] at h1 ⊢
    rcases hfx : f x with e | y <;> rw [hfx] at h1
    · exact absurd h1 (by simp)
    · rcases hxs : eMapM f xs with e | ys <;> rw [hxs] at h1
      · exact absurd h1 (by simp)
      · injection h1 with h1
        subst h1
        simp [ih hxs]

/-- A fallible map over elements that each succeed succeeds. -/
theorem eMapM_ok_of_forall {α β : Type} (f : α → Except String β) (t : List α)
    (h : ∀ x ∈ t, ∃ y, f x = .ok y) : ∃ ys, eMapM f t = .ok ys := by
  induction t with
  | nil => exact ⟨[], rfl⟩
  | cons x xs ih =>
    obtain ⟨y, hy⟩ := h x (List.mem_cons_self x xs)
    obtain ⟨ys, hys⟩ := ih (fun z hz => h z (List.mem_cons_of_mem x hz))
    exact ⟨y :: ys, by simp [eMapM, hy, hys]⟩

/-- Every element of a successful fallible map comes from some input. -/
theorem eMapM_ok_mem {α β : Type} (f : α → Except String β) {l : List α}
    {ys : List β} (h : eMapM f l = .ok ys) :
    ∀ y ∈ ys, ∃ x ∈ l, f x = .ok y := by
  induction l generalizing ys with
  | nil =>
    simp only [eMapM] at h
    injection h with h
    subst h
    intro y hy
    exact absurd hy (by simp)
  | cons x xs ih =>
    simp only [eMapM] at h
    rcases hfx : f x with e | y0 <;> rw [hfx] at h
    · exact absurd h (by simp)
    · rcases hxs : eMapM f xs with e | ys0 <;> rw [hxs] at h
      · exact absurd h (by simp)
      · injection h with h
        subst h
        intro y hy
        rcases List.mem_cons.mp hy with hy | hy
        · exact ⟨x, List.mem_cons_self x xs, hy ▸ hfx⟩
        · obtain ⟨z, hz, hfz⟩ := ih hxs y hy
          exact ⟨z, List.mem_cons_of_mem x hz, hfz⟩

/-- `foldl (· ++ ·)` peels off its initial segment. -/
theorem foldl_append_init {α : Type} (l : List (List α)) :
    ∀ init : List α, l.foldl (· ++ ·) init = init ++ l.foldl (· ++ ·) [] := by
  induction l with
  | nil => intro init; simp
  | cons x xs ih =>
    intro init
    simp only [List.foldl_cons]
    rw [ih (init ++ x), ih ([] ++ x)]
    simp

/-- Python `sum` of nested lists distributes over concatenation. -/
theorem pySum_append {α : Type} (a b : List (List α)) :
    pySum (a ++ b) = pySum a ++ pySum b := by
  unfold pySum
  rw [List.foldl_append, foldl_append_init b (a.foldl (· ++ ·) [])]

/-- `pySplit` always yields at least one piece. -/
theorem pySplit_ne_nil (sep : Char) (s : Str) : pySplit sep s ≠ [] := by
  induction s with
  | nil => simp [pySplit]
  | cons c rest ih =>
    unfold pySplit
    rcases h : pySplit sep rest with _ | ⟨h0, t⟩
    · simp
    · by_cases hcs : c = sep <;> simp [hcs]

/-- Splitting a string that does not contain the separator is the identity
piece. -/
theorem pySplit_not_mem {sep : Char} {xs : Str} (h : sep ∉ xs) :
    pySplit sep xs = [xs] := by
  induction xs with
  | nil => rfl
  | cons c rest ih =>
    simp only [List.mem_cons, not_or] at h
    conv_lhs => rw [pySplit]
    rw [ih h.2]
    dsimp only
    rw [if_neg (fun e => h.1 e.symm)]

/-- Splitting at the first separator occurrence peels off the prefix. -/
theorem pySplit_append {sep : Char} {a : Str} (b : Str) (h : sep ∉ a) :
    pySplit sep (a ++ sep :: b) = a :: pySplit sep b := by
  induction a with
  | nil =>
    simp only [List.nil_append]
    rcases hb : pySplit sep b with _ | ⟨h0, t⟩
    · exact absurd hb (pySplit_ne_nil sep b)
    · conv_lhs => rw [pySplit]
      rw [hb]
      simp
  | cons c a' ih =>
    simp only [List.mem_cons, not_or] at h
    simp only [List.cons_append]
    conv_lhs => rw [pySplit]
    rw [ih h.2]
    dsimp only
    rw [if_neg (fun e => h.1 e.symm)]

/-- Every character of a decimal representation is a digit. -/
theorem mem_natStrAux_isDigit :
    ∀ (f n : Nat) (c : Char), c ∈ natStrAux f n → c.isDigit = true := by
  intro f
  induction f with
  | zero => intro n c hc; simp [natStrAux] at hc
  | succ f ih =>
    intro n c hc
    cases n with
    | zero => simp [natStrAux] at hc
    | succ m =>
      simp only [natStrAux, List.mem_append, List.mem_singleton] at hc
      rcases hc with hc | hc
      · exact ih _ c hc
      · subst hc
        have hlt : (m + 1) % 10 < 10 := Nat.mod_lt _ (by omega)
        unfold digitToChar
        interval_cases h : (m + 1) % 10 <;> decide

/-- Every character of `natStr` is a digit. -/
theorem mem_natStr_isDigit (n : Nat) (c : Char) (h : c ∈ natStr n) :
    c.isDigit = true := by
  unfold natStr at h
  split at h
  · simp only [List.mem_singleton] at h
    subst h
    decide
  · exact mem_natStrAux_isDigit n n c h

/-- A non-digit character never occurs in a decimal representation. -/
theorem not_mem_natStr (c : Char) (hc : c.isDigit = false) (n : Nat) :
    c ∉ natStr n := by
  intro h
  rw [mem_natStr_isDigit n c h] at hc
  exact absurd hc (by simp)

/-- `natStr` is never empty. -/
theorem natStr_ne_nil (n : Nat) : natStr n ≠ [] := by
  unfold natStr
  split
  · simp
  · rename_i hn
    cases n with
    | zero => exact absurd rfl hn
    | succ m => simp [natStrAux]

/-- Folding the decimal-digit accumulator over `natStrAux` computes the
number (in Horner form relative to any accumulator). -/
theorem foldl_natStrAux :
    ∀ (f n a : Nat), n ≤ f →
      (natStrAux f n).foldl (fun x c => 10 * x + (c.toNat - 48)) a =
        a * 10 ^ (natStrAux f n).length + n := by
  intro f
  induction f with
  | zero =>
    intro n a hn
    have : n = 0 := by omega
    subst this
    simp [natStrAux]
  | succ f ih =>
    intro n a hn
    cases n with
    | zero => simp [natStrAux]
    | succ m =>
      have hq : (m + 1) / 10 ≤ f := by
        have := Nat.div_lt_self (by omega : 0 < m + 1) (by omega : 1 < 10)
        omega
      have hr : (m + 1) % 10 < 10 := Nat.mod_lt _ (by omega)
      have htn : (digitToChar ((m + 1) % 10)).toNat - 48 = (m + 1) % 10 := by
        unfold digitToChar
        interval_cases h : (m + 1) % 10 <;> decide
      simp only [natStrAux, List.foldl_append, List.foldl_cons, List.foldl_nil,
        List.length_append, List.length_singleton]
      rw [ih ((m + 1) / 10) a hq, htn, pow_succ]
      have hqr : 10 * ((m + 1) / 10) + (m + 1) % 10 = m + 1 :=
        Nat.div_add_mod (m + 1) 10
      set q := (m + 1) / 10 with hq2
      set r := (m + 1) % 10 with hr2
      rw [← hqr]
      ring

/-- `pp.common.integer` on the decimal representation returns the number. -/
theorem parseNatDigits_natStr (n : Nat) :
    parseNatDigits (natStr n) = .ok n := by
  unfold parseNatDigits
  rw [if_pos ⟨natStr_ne_nil n, by
    rw [List.all_eq_true]
    intro c hc
    exact mem_natStr_isDigit n c hc⟩]
  cases n with
  | zero => rfl
  | succ m =>
    have : natStr (m + 1) = natStrAux (m + 1) (m + 1) := by
      unfold natStr
      rw [if_neg (by omega)]
    rw [this, foldl_natStrAux (m + 1) (m + 1) 0 (le_refl _)]
    simp

/-- Characters of a decimal `location` string are digits or the dot. -/
theorem mem_locStr (c0 : Char) (s c : Nat)
    (h : c0 ∈ natStr s ++ '.' :: natStr c) : c0.isDigit = true ∨ c0 = '.' := by
  rcases List.mem_append.mp h with h | h
  · exact Or.inl (mem_natStr_isDigit s c0 h)
  · rcases List.mem_cons.mp h with h | h
    · exact Or.inr h
    · exact Or.inl (mem_natStr_isDigit c c0 h)

/-- A character that is neither a digit nor the dot is not in a `location`
string. -/
theorem not_mem_locStr (c0 : Char) (h0 : c0.isDigit = false) (hdot : c0 ≠ '.')
    (s c : Nat) : c0 ∉ natStr s ++ '.' :: natStr c := by
  intro hmem
  rcases mem_locStr c0 s c hmem with h | h
  · rw [h] at h0; exact absurd h0 (by simp)
  · exact hdot h

/-- A decimal `location` string is nonempty. -/
theorem locStr_isEmpty (s c : Nat) :
    (natStr s ++ '.' :: natStr c).isEmpty = false := by
  cases h : natStr s <;> simp [h]

/-- Lexing a decimal `location` token group yields its two numbers. -/
theorem locTok_natStr (s c : Nat) :
    locTok (natStr s ++ '.' :: natStr c) = .ok (s, c) := by
  unfold locTok
  rw [pySplit_append (natStr c) (not_mem_natStr '.' (by decide) s)]
  rw [pySplit_not_mem (not_mem_natStr '.' (by decide) c)]
  dsimp only
  rw [parseNatDigits_natStr s, parseNatDigits_natStr c]

/-- `__to_location` accepts positive source and column numbers. -/
theorem to_location_ok (s c : Nat) (hs : 1 ≤ s) (hc : 1 ≤ c) :
    to_location s c = .ok ⟨(s : Int), (c : Int)⟩ := by
  unfold to_location
  rw [if_neg (by omega), if_neg (by omega)]

/-- `__to_range` on a one-location token list. -/
theorem to_range_single (s c : Nat) (hs : 1 ≤ s) (hc : 1 ≤ c) :
    to_range [RTok.lc s c] = .ok (Range.single ⟨(s : Int), (c : Int)⟩) := by
  unfold to_range
  dsimp only
  rw [to_location_ok s c hs hc]

/-- `__to_range` on a trailing-dash token list. -/
theorem to_range_left (s c : Nat) (hs : 1 ≤ s) (hc : 1 ≤ c) :
    to_range [RTok.lc s c, RTok.dash] = .ok (Range.left ⟨(s : Int), (c : Int)⟩) := by
  unfold to_range
  dsimp only
  rw [to_location_ok s c hs hc]

/-- `__to_range` on a leading-dash token list. -/
theorem to_range_right (s c : Nat) (hs : 1 ≤ s) (hc : 1 ≤ c) :
    to_range [RTok.dash, RTok.lc s c] = .ok (Range.right ⟨(s : Int), (c : Int)⟩) := by
  unfold to_range
  dsimp only
  rw [to_location_ok s c hs hc]

/-- `__to_range` on a location-dash-location token list. -/
theorem to_range_interval (s1 c1 s2 c2 : Nat) (hs1 : 1 ≤ s1) (hc1 : 1 ≤ c1)
    (hs2 : 1 ≤ s2) (hc2 : 1 ≤ c2) :
    to_range [RTok.lc s1 c1, RTok.dash, RTok.lc s2 c2] =
      .ok (Range.interval ⟨(s1 : Int), (c1 : Int)⟩ ⟨(s2 : Int), (c2 : Int)⟩) := by
  unfold to_range
  dsimp only
  rw [to_location_ok s1 c1 hs1 hc1]
  dsimp only
  rw [to_location_ok s2 c2 hs2 hc2]

/-- Lexing the `single` form. -/
theorem rangeToks_single (s c : Nat) :
    rangeToks (natStr s ++ '.' :: natStr c) = .ok [RTok.lc s c] := by
  unfold rangeToks
  rw [pySplit_not_mem (not_mem_locStr '-' (by decide) (by decide) s c)]
  dsimp only
  rw [locTok_natStr s c]

/-- Lexing the `left` form. -/
theorem rangeToks_left (s c : Nat) :
    rangeToks ((natStr s ++ '.' :: natStr c) ++ ['-']) =
      .ok [RTok.lc s c, RTok.dash] := by
  unfold rangeToks
  rw [show ((natStr s ++ '.' :: natStr c) ++ ['-'] : Str) =
      (natStr s ++ '.' :: natStr c) ++ '-' :: [] from rfl]
  rw [pySplit_append [] (not_mem_locStr '-' (by decide) (by decide) s c)]
  rw [show pySplit '-' [] = [[]] from rfl]
  simp [locStr_isEmpty, locTok_natStr]

/-- Lexing the `right` form. -/
theorem rangeToks_right (s c : Nat) :
    rangeToks ('-' :: (natStr s ++ '.' :: natStr c)) =
      .ok [RTok.dash, RTok.lc s c] := by
  unfold rangeToks
  rw [show ('-' :: (natStr s ++ '.' :: natStr c) : Str) =
      [] ++ '-' :: (natStr s ++ '.' :: natStr c) from rfl]
  rw [pySplit_append (natStr s ++ '.' :: natStr c) (by simp)]
  rw [pySplit_not_mem (not_mem_locStr '-' (by decide) (by decide) s c)]
  simp [locStr_isEmpty, locTok_natStr]

/-- Lexing the `interval` form. -/
theorem rangeToks_interval (s1 c1 s2 c2 : Nat) :
    rangeToks ((natStr s1 ++ '.' :: natStr c1) ++
        '-' :: (natStr s2 ++ '.' :: natStr c2)) =
      .ok [RTok.lc s1 c1, RTok.dash, RTok.lc s2 c2] := by
  unfold rangeToks
  rw [pySplit_append (natStr s2 ++ '.' :: natStr c2)
    (not_mem_locStr '-' (by decide) (by decide) s1 c1)]
  rw [pySplit_not_mem (not_mem_locStr '-' (by decide) (by decide) s2 c2)]
  simp [locStr_isEmpty, locTok_natStr]

/-- No comma occurs in the `left` form. -/
theorem not_mem_comma_left (s c : Nat) :
    ',' ∉ (natStr s ++ '.' :: natStr c) ++ ['-'] := by
  intro h
  rcases List.mem_append.mp h with h | h
  · exact not_mem_locStr ',' (by decide) (by decide) s c h
  · simp at h

/-- No comma occurs in the `right` form. -/
theorem not_mem_comma_right (s c : Nat) :
    ',' ∉ '-' :: (natStr s ++ '.' :: natStr c) := by
  intro h
  rcases List.mem_cons.mp h with h | h
  · exact absurd h (by decide)
  · exact not_mem_locStr ',' (by decide) (by decide) s c h

/-- No comma occurs in the `interval` form. -/
theorem not_mem_comma_interval (s1 c1 s2 c2 : Nat) :
    ',' ∉ (natStr s1 ++ '.' :: natStr c1) ++ '-' :: (natStr s2 ++ '.' :: natStr c2) := by
  intro h
  rcases List.mem_append.mp h with h | h
  · exact not_mem_locStr ',' (by decide) (by decide) s1 c1 h
  · rcases List.mem_cons.mp h with h | h
    · exact absurd h (by decide)
    · exact not_mem_locStr ',' (by decide) (by decide) s2 c2 h

/-- `takeWhile`/`dropWhile` split a list at the first failing element. -/
theorem takeWhile_append_stop {α : Type} (p : α → Bool) (l1 : List α) (x : α)
    (l2 : List α) (h1 : ∀ c ∈ l1, p c = true) (hx : p x = false) :
    (l1 ++ x :: l2).takeWhile p = l1 ∧ (l1 ++ x :: l2).dropWhile p = x :: l2 := by
  induction l1 with
  | nil => simp [List.takeWhile_cons, List.dropWhile_cons, hx]
  | cons a l ih =>
    have ha : p a = true := h1 a (List.mem_cons_self a l)
    have hrec := ih (fun c hc => h1 c (List.mem_cons_of_mem a hc))
    simp [List.takeWhile_cons, List.dropWhile_cons, ha, hrec.1, hrec.2]

/-- Re-seeking to an offset recorded by the scan loop re-reads exactly the
raw line the loop saw there. -/
theorem scanLinesAux_readline (t : Str) :
    ∀ (s : Str) (start : Nat) (cur : Str),
      t.drop start = cur.reverse ++ s → (∀ c ∈ cur, c ≠ '\n') →
      ∀ p ∈ scanLinesAux s start cur, readlineAt t p.1 = p.2 := by
  intro s
  induction s with
  | nil =>
    intro start cur hdrop hcur p hp
    cases cur with
    | nil => simp [scanLinesAux] at hp
    | cons c cs =>
      simp [scanLinesAux] at hp
      subst hp
      unfold readlineAt
      rw [hdrop]
      simp only [List.append_nil]
      have hall : ∀ x ∈ (c :: cs).reverse, (fun y => decide (y ≠ '\n')) x = true := by
        intro x hx
        simp only [decide_eq_true_eq]
        exact hcur x (List.mem_reverse.mp hx)
      rw [List.takeWhile_eq_self_iff.mpr hall, List.dropWhile_eq_nil_iff.mpr
        (fun x hx => hall x hx)]
      simp
  | cons c rest ih =>
    intro start cur hdrop hcur p hp
    by_cases hc : c = '\n'
    · subst hc
      rw [show scanLinesAux ('\n' :: rest) start cur =
          (start, ('\n' :: cur).reverse) :: scanLinesAux rest (start + cur.length + 1) []
        from by simp [scanLinesAux]] at hp
      rcases List.mem_cons.mp hp with hp | hp
      · subst hp
        unfold readlineAt
        rw [hdrop]
        have hall : ∀ x ∈ cur.reverse, (fun y => decide (y ≠ '\n')) x = true := by
          intro x hx
          simp only [decide_eq_true_eq]
          exact hcur x (List.mem_reverse.mp hx)
        have hsplit := takeWhile_append_stop (fun y => decide (y ≠ '\n'))
          cur.reverse '\n' rest hall (by simp)
        dsimp only
        rw [hsplit.1, hsplit.2]
        simp
      · refine ih (start + cur.length + 1) [] ?_ (by simp) p hp
        have h1 : start + cur.length + 1 = start + (cur.length + 1) := by omega
        rw [h1, ← List.drop_drop, hdrop]
        have h2 : cur.reverse ++ '\n' :: rest = (cur.reverse ++ ['\n']) ++ rest := by
          simp
        have h3 : cur.length + 1 = (cur.reverse ++ ['\n']).length := by simp
        rw [h2, h3, List.drop_left]
        simp
    · simp only [scanLinesAux, if_neg hc] at hp
      refine ih start (c :: cur) ?_ ?_ p hp
      · rw [hdrop]
        simp
      · intro x hx
        rcases List.mem_cons.mp hx with hx | hx
        · subst hx; exact hc
        · exact hcur x hx

/-- Membership in the flattened buckets after one `Index.add`. -/
theorem mem_addItem (b : List (Str × List IndexItem)) (it x : IndexItem) :
    x ∈ (addItem b it).flatMap Prod.snd ↔ x ∈ b.flatMap Prod.snd ∨ x = it := by
  induction b with
  | nil => simp [addItem]
  | cons p rest ih =>
    obtain ⟨k, xs⟩ := p
    by_cases hk : k = it.key
    · simp only [addItem, if_pos hk, List.flatMap_cons, List.mem_append,
        List.mem_singleton]
      tauto
    · simp only [addItem, if_neg hk, List.flatMap_cons, List.mem_append, ih]
      tauto

/-- Membership in the flattened buckets after adding a whole item list. -/
theorem mem_foldl_addItem (l : List IndexItem) :
    ∀ (b : List (Str × List IndexItem)) (x : IndexItem),
      x ∈ (l.foldl addItem b).flatMap Prod.snd ↔ x ∈ b.flatMap Prod.snd ∨ x ∈ l := by
  induction l with
  | nil => simp
  | cons it tl ih =>
    intro b x
    simp only [List.foldl_cons]
    rw [ih (addItem b it) x, mem_addItem]
    simp only [List.mem_cons]
    tauto

/-- Setting a fresh key appends the binding. -/
theorem dictSet_append_of_not_mem {κ α : Type} [DecidableEq κ]
    (acc : List (κ × α)) (k : κ) (v : α) (h : k ∉ acc.map Prod.fst) :
    dictSet acc k v = acc ++ [(k, v)] := by
  induction acc with
  | nil => rfl
  | cons p rest ih =>
    obtain ⟨k0, v0⟩ := p
    simp only [List.map_cons, List.mem_cons, not_or] at h
    simp only [dictSet, if_neg (Ne.symm h.1)]
    rw [ih h.2]
    simp

/-- Folding `dictSet` over the values of an association list whose keys are
the values' `src` fields and are pairwise distinct rebuilds the list. -/
theorem foldl_dictSet_values (l : List (Int × JoinItem))
    (hsrc : ∀ p ∈ l, p.2.src = p.1) (hnd : (l.map Prod.fst).Nodup) :
    ∀ acc : List (Int × JoinItem), (∀ k ∈ acc.map Prod.fst, k ∉ l.map Prod.fst) →
      (l.map Prod.snd).foldl (fun d x => dictSet d x.src x) acc = acc ++ l := by
  induction l with
  | nil => intro acc _; simp
  | cons p tl ih =>
    intro acc hdisj
    obtain ⟨k, v⟩ := p
    have hvk : v.src = k := hsrc (k, v) (List.mem_cons_self _ _)
    have hknotacc : k ∉ acc.map Prod.fst := by
      intro hk
      exact hdisj k hk (by simp)
    simp only [List.map_cons, List.foldl_cons]
    rw [hvk, dictSet_append_of_not_mem acc k v hknotacc]
    simp only [List.map_cons, List.nodup_cons] at hnd
    rw [ih (fun q hq => hsrc q (List.mem_cons_of_mem _ hq)) hnd.2 (acc ++ [(k, v)])
      (by
        intro k0 hk0
        simp only [List.map_append, List.mem_append, List.map_cons] at hk0
        rcases hk0 with hk0 | hk0
        · intro hc
          exact hdisj k0 hk0 (List.mem_cons_of_mem _ hc)
        · simp only [List.map_nil, List.mem_singleton] at hk0
          subst hk0
          exact hnd.1)]
    simp

/-- Rebuilding a well-formed row dict from its values (what the
`JoinItemList` constructor does on `copy`) reproduces it. -/
theorem fromItems_values_of_wf (d : JoinItemList) (h : d.WFDict) :
    JoinItemList.fromItems d.values = d := by
  obtain ⟨hsrc, hnd⟩ := h
  unfold JoinItemList.fromItems JoinItemList.values
  have := foldl_dictSet_values d.entries hsrc hnd [] (by simp)
  rw [this]
  simp

/-- A range whose boundaries pass the source-range validation always
selects successfully. -/
theorem selectRange_ok_of_valid (column_list : List (List Str)) (rng : Range)
    (h : rangeInSrcRange column_list rng) :
    ∃ ys, selectRange column_list rng = .ok ys := by
  obtain ⟨h1, h2⟩ := h
  unfold selectRange
  rw [if_pos ⟨h1, h2⟩]
  rcases pySlice column_list rng.ends.1.src rng.ends.2.src with _ | ⟨s0, _ | ⟨s1, _ | ⟨s2, rest⟩⟩⟩
  · exact ⟨_, rfl⟩
  · exact ⟨_, rfl⟩
  · exact ⟨_, rfl⟩
  · exact ⟨_, rfl⟩

end PytoolsJoin

namespace PytoolsJoin

/-! ## Claim theorems -/

/-- C6: `select_columns` is a homomorphism over target concatenation: when
every range of both targets has in-range boundaries, both targets select
successfully and selecting their concatenation yields the concatenation of
their selections. -/
theorem select_columns_append_hom (t1 t2 : Target) (column_list : List (List Str))
    (h : ∀ rng ∈ t1 ++ t2, rangeInSrcRange column_list rng) :
    ∃ a b, select_columns t1 column_list = .ok a ∧
      select_columns t2 column_list = .ok b ∧
      select_columns (t1 ++ t2) column_list = .ok (a ++ b) := by
  obtain ⟨a, ha⟩ := eMapM_ok_of_forall (selectRange column_list) t1
    (fun x hx => selectRange_ok_of_valid column_list x
      (h x (List.mem_append_left t2 hx)))
  obtain ⟨b, hb⟩ := eMapM_ok_of_forall (selectRange column_list) t2
    (fun x hx => selectRange_ok_of_valid column_list x
      (h x (List.mem_append_right t1 hx)))
  refine ⟨pySum a, pySum b, ?_, ?_, ?_⟩
  · unfold select_columns; rw [ha]
  · unfold select_columns; rw [hb]
  · unfold select_columns
    rw [eMapM_append_ok (selectRange column_list) ha hb]
    simp [pySum_append]

/-- C6, witness at a concrete column list and pair of targets. -/
theorem select_columns_append_hom_witness :
    (∀ rng ∈ [Range.single ⟨1, 1⟩] ++ [Range.single ⟨2, 1⟩],
        rangeInSrcRange clFour rng) ∧
      ∃ a b, select_columns [Range.single ⟨1, 1⟩] clFour = .ok a ∧
        select_columns [Range.single ⟨2, 1⟩] clFour = .ok b ∧
        select_columns ([Range.single ⟨1, 1⟩] ++ [Range.single ⟨2, 1⟩]) clFour =
          .ok (a ++ b) :=
  ⟨by decide, select_columns_append_hom [Range.single ⟨1, 1⟩]
    [Range.single ⟨2, 1⟩] clFour (by decide)⟩

/-- C7: `parse_joinkey` never returns a join key containing a relation whose
two locations share a source index; whenever the parsing stage yields such a
relation the whole parse fails with the joinkey validation error. -/
theorem parse_joinkey_no_equal_src :
    (∀ (s : Str) (r : JoinKey), parse_joinkey s = .ok r →
        ∀ x ∈ r, x.left.src ≠ x.right.src) ∧
      ∀ (s : Str) (rels : JoinKey), parseJoinkeyRels s = .ok rels →
        (∃ x ∈ rels, x.left.src = x.right.src) →
        ∃ e, parse_joinkey s = .error e := by
  constructor
  · intro s r h x hx
    unfold parse_joinkey at h
    rcases hp : parseJoinkeyRels s with e | r0 <;> rw [hp] at h <;> dsimp only at h
    · exact absurd h (by simp)
    · split at h
      · exact absurd h (by simp)
      · rename_i ha
        injection h with h
        subst h
        simp only [List.any_eq_true, decide_eq_true_eq, not_exists, not_and] at ha
        exact fun c => ha x hx c
  · intro s rels h hex
    unfold parse_joinkey
    rw [h]
    dsimp only
    have ha : (rels.any fun x => decide (x.left.src = x.right.src)) = true := by
      simp only [List.any_eq_true, decide_eq_true_eq]
      exact hex
    simp [ha]

/-- C7, witness: `"1.1=2.1"` parses and its relation has distinct sources;
`"1.2=1.3"` reaches the validation stage with equal sources and the parse
fails. -/
theorem parse_joinkey_no_equal_src_witness :
    (parse_joinkey "1.1=2.1".toList = .ok [⟨⟨1, 1⟩, ⟨2, 1⟩⟩] ∧
        ∀ x ∈ ([⟨⟨1, 1⟩, ⟨2, 1⟩⟩] : JoinKey), x.left.src ≠ x.right.src) ∧
      parseJoinkeyRels "1.2=1.3".toList = .ok [⟨⟨1, 2⟩, ⟨1, 3⟩⟩] ∧
        ∃ e, parse_joinkey "1.2=1.3".toList = .error e :=
  ⟨⟨by decide, parse_joinkey_no_equal_src.1 "1.1=2.1".toList [⟨⟨1, 1⟩, ⟨2, 1⟩⟩] (by decide)⟩,
    by decide,
    parse_joinkey_no_equal_src.2 "1.2=1.3".toList [⟨⟨1, 2⟩, ⟨1, 3⟩⟩] (by decide) (by decide)⟩

/-- C5, counterexample: for the source `"a \n"` (one line with a trailing
space), `Index.read` on the item recorded at offset 0 returns `"a"` — the
line with all trailing whitespace stripped — while the original line modulo
trailing newline stripping is `"a "`; the two differ, so `read` does not
return the line merely modulo newline stripping. -/
theorem index_read_strips_trailing_space :
    scanLines srcTrail = [(0, srcTrail)] ∧
      Index.new srcTrail (indexKeyFn 0 ',') = .ok idxTrail ∧
      (idxTrail.read ⟨"a".toList, 0⟩).line = "a".toList ∧
      stripTrailingNewline srcTrail = "a ".toList ∧
      "a".toList ≠ ("a ".toList : Str) :=
  ⟨by decide, rfl, by decide, by decide, by decide⟩

/-- C5, amended: for every item recorded during `Index.new` construction,
`Index.read` reproduces the original raw line modulo trailing whitespace
stripping (Python `rstrip()`), which strips the trailing newline and any
other trailing whitespace. -/
theorem index_read_round_trip (src : Str) (key : Str → Except String Str)
    (idx : Index) (h : Index.new src key = .ok idx) :
    ∀ item ∈ idx.itemsList, ∃ raw, (item.offset, raw) ∈ scanLines src ∧
      (idx.read item).line = rstrip raw := by
  unfold Index.new at h
  rcases he : eMapM (fun p =>
      match key (rstrip p.2) with
      | .error e => .error e
      | .ok k => .ok (IndexItem.mk k p.1)) (scanLines src) with e | items <;>
    rw [he] at h
  · exact absurd h (by simp)
  · injection h with h
    subst h
    intro item hmem
    unfold Index.itemsList at hmem
    rcases (mem_foldl_addItem items [] item).mp hmem with h0 | h1
    · exact absurd h0 (by simp)
    · obtain ⟨⟨off, raw⟩, hin, hf⟩ := eMapM_ok_mem _ he item h1
      dsimp only at hf
      rcases hk : key (rstrip raw) with e | k <;> rw [hk] at hf
      · exact absurd hf (by simp)
      · injection hf with hf
        have hoff : item.offset = off := by rw [← hf]
        have hread : readlineAt src off = raw :=
          scanLinesAux_readline src src 0 [] (by simp) (by simp) (off, raw) hin
        refine ⟨raw, ?_, ?_⟩
        · rw [hoff]; exact hin
        · unfold Index.read
          dsimp only
          rw [hoff, hread]

/-- C5, witness: the round trip applied to the concrete source `"a \n"`. -/
theorem index_read_round_trip_witness :
    Index.new srcTrail (indexKeyFn 0 ',') = .ok idxTrail ∧
      ∀ item ∈ idxTrail.itemsList, ∃ raw, (item.offset, raw) ∈ scanLines srcTrail ∧
        (idxTrail.read item).line = rstrip raw :=
  ⟨rfl, index_read_round_trip srcTrail (indexKeyFn 0 ',') idxTrail rfl⟩

/-- C8: for all positive naturals, `parse_target` maps the decimal form
`"s.c"` to `[Single(s, c)]`, `"s.c-"` to `[Left(s, c)]`, `"-s.c"` to
`[Right(s, c)]`, and `"s1.c1-s2.c2"` to `[Interval((s1, c1), (s2, c2))]`. -/
theorem parse_target_four_forms (s c s1 c1 s2 c2 : Nat)
    (hs : 1 ≤ s) (hc : 1 ≤ c) (hs1 : 1 ≤ s1) (hc1 : 1 ≤ c1)
    (hs2 : 1 ≤ s2) (hc2 : 1 ≤ c2) :
    parse_target (natStr s ++ '.' :: natStr c) =
        .ok [Range.single ⟨(s : Int), (c : Int)⟩] ∧
      parse_target ((natStr s ++ '.' :: natStr c) ++ ['-']) =
        .ok [Range.left ⟨(s : Int), (c : Int)⟩] ∧
      parse_target ('-' :: (natStr s ++ '.' :: natStr c)) =
        .ok [Range.right ⟨(s : Int), (c : Int)⟩] ∧
      parse_target ((natStr s1 ++ '.' :: natStr c1) ++
          '-' :: (natStr s2 ++ '.' :: natStr c2)) =
        .ok [Range.interval ⟨(s1 : Int), (c1 : Int)⟩ ⟨(s2 : Int), (c2 : Int)⟩] := by
  refine ⟨?_, ?_, ?_, ?_⟩
  · unfold parse_target
    rw [pySplit_not_mem (not_mem_locStr ',' (by decide) (by decide) s c)]
    simp only [eMapM]
    rw [rangeToks_single s c]
    dsimp only
    rw [to_range_single s c hs hc]
  · unfold parse_target
    rw [pySplit_not_mem (not_mem_comma_left s c)]
    simp only [eMapM]
    rw [rangeToks_left s c]
    dsimp only
    rw [to_range_left s c hs hc]
  · unfold parse_target
    rw [pySplit_not_mem (not_mem_comma_right s c)]
    simp only [eMapM]
    rw [rangeToks_right s c]
    dsimp only
    rw [to_range_right s c hs hc]
  · unfold parse_target
    rw [pySplit_not_mem (not_mem_comma_interval s1 c1 s2 c2)]
    simp only [eMapM]
    rw [rangeToks_interval s1 c1 s2 c2]
    dsimp only
    rw [to_range_interval s1 c1 s2 c2 hs1 hc1 hs2 hc2]

/-- C8, witness at the concrete locations `1.2`, `1.2-`, `-1.2` and
`3.4-5.6`. -/
theorem parse_target_four_forms_witness :
    parse_target (natStr 1 ++ '.' :: natStr 2) =
        .ok [Range.single ⟨(1 : Int), (2 : Int)⟩] ∧
      parse_target ((natStr 1 ++ '.' :: natStr 2) ++ ['-']) =
        .ok [Range.left ⟨(1 : Int), (2 : Int)⟩] ∧
      parse_target ('-' :: (natStr 1 ++ '.' :: natStr 2)) =
        .ok [Range.right ⟨(1 : Int), (2 : Int)⟩] ∧
      parse_target ((natStr 3 ++ '.' :: natStr 4) ++
          '-' :: (natStr 5 ++ '.' :: natStr 6)) =
        .ok [Range.interval ⟨(3 : Int), (4 : Int)⟩ ⟨(5 : Int), (6 : Int)⟩] :=
  parse_target_four_forms 1 2 3 4 5 6 (by decide) (by decide) (by decide)
    (by decide) (by decide) (by decide)

/-- C9: `JoinItemList.copy` on the object store returns a fresh address
(a new container) whose contents equal the original's, and a subsequent
`set` through the copy's address leaves the original object's bindings
unchanged: the copy constructor rebuilds the dict instead of aliasing it. -/
theorem join_item_list_copy_no_alias (st : RowStore) (r : Nat)
    (hr : r < st.length) (hwf : (st.cell r).WFDict) :
    (st.copyOp r).2 ≠ r ∧
      (st.copyOp r).1.cell (st.copyOp r).2 = st.cell r ∧
      ∀ item : JoinItem,
        ((st.copyOp r).1.setOp (st.copyOp r).2 item).cell r = st.cell r := by
  refine ⟨?_, ?_, ?_⟩
  · unfold RowStore.copyOp
    simp only []
    omega
  · unfold RowStore.copyOp RowStore.cell
    simp only [List.getD]
    rw [List.get?_concat_length]
    simp only [Option.getD_some]
    exact fromItems_values_of_wf _ hwf
  · intro item
    unfold RowStore.setOp RowStore.copyOp RowStore.cell
    simp only [List.getD]
    rw [List.get?_set_ne _ _ (by omega : st.length ≠ r)]
    rw [List.get?_append hr]

/-- C9, witness on a one-object store holding a well-formed row. -/
theorem join_item_list_copy_no_alias_witness :
    0 < storeOne.length ∧ (RowStore.cell storeOne 0).WFDict ∧
      ((RowStore.copyOp storeOne 0).2 ≠ 0 ∧
        RowStore.cell (RowStore.copyOp storeOne 0).1 (RowStore.copyOp storeOne 0).2 =
          RowStore.cell storeOne 0 ∧
        ∀ item : JoinItem,
          RowStore.cell
              (RowStore.setOp (RowStore.copyOp storeOne 0).1
                (RowStore.copyOp storeOne 0).2 item) 0 =
            RowStore.cell storeOne 0) :=
  ⟨by decide, by decide,
    join_item_list_copy_no_alias storeOne 0 (by decide) (by decide)⟩

/-- C1, counterexample: with relation `1.1=2.1`, an incoming row binding only
source index 5 — neither relation side — produces an empty output: the row
is not passed through to the output as the claim states (its `pass` branch
emits nothing). -/
theorem join_unbound_row_not_passed :
    RelationJoiner.join cfgA relA (some [rowFive]) = .ok [] ∧
      rowFive.get ((relA.left.add (-1) (-1)).src) = none ∧
      rowFive.get ((relA.right.add (-1) (-1)).src) = none := by
  decide

/-- C1, amended: in an incremental join, a row in which neither the
relation's left nor right source index is bound is dropped — it contributes
no output row, and the join result is the same as if the row had not been in
the incoming stream at all. -/
theorem join_unbound_row_dropped (cfg : JoinConfig) (rel : JoinKeyRelation)
    (rows1 rows2 : List JoinItemList) (row : JoinItemList)
    (hl : row.get ((rel.left.add (-1) (-1)).src) = none)
    (hr : row.get ((rel.right.add (-1) (-1)).src) = none) :
    RelationJoiner.join cfg rel (some (rows1 ++ row :: rows2)) =
      RelationJoiner.join cfg rel (some (rows1 ++ rows2)) := by
  unfold RelationJoiner.join
  dsimp only
  rcases hli : get_index cfg (rel.left.add (-1) (-1)) with e | lindex
  · simp [hli]
  · rcases hri : get_index cfg (rel.right.add (-1) (-1)) with e | rindex
    · simp [hli, hri]
    · simp only [hli, hri]
      exact joinLoop_drop_unbound _ _ lindex rindex row hl hr rows2 rows1 none

/-- C1, witness for the amended theorem at a concrete configuration. -/
theorem join_unbound_row_dropped_witness :
    rowFive.get ((relA.left.add (-1) (-1)).src) = none ∧
      rowFive.get ((relA.right.add (-1) (-1)).src) = none ∧
      RelationJoiner.join cfgA relA (some ([] ++ rowFive :: [])) =
        RelationJoiner.join cfgA relA (some ([] ++ [])) :=
  ⟨by decide, by decide,
    join_unbound_row_dropped cfgA relA [] [] rowFive (by decide) (by decide)⟩

/-- C2: two incoming rows with different sets of bound source indices (`{5}`
then `{6}`) flow through one relation step without any error — the loop's
`is_initial` flag is never cleared, so the consistency check can never fire
and the step succeeds (here with empty output) instead of failing as the
claim states. -/
theorem join_inconsistent_rows_no_error :
    RelationJoiner.join cfgA relA (some [rowFive, rowSix]) = .ok [] ∧
      rowFive.keys ≠ rowSix.keys := by
  decide

/-- C3: a three-source span that starts at source index 1 (zero-based
boundaries `l = (1, 0)`, `r = (4, 1)`, all within the four-row column list)
selects the tail of the first spanned row, the interior row, and the last
spanned row twice — once in full and once as its head — because the interior
slice `srcs[1 : r.src - 1]` indexes the already-shifted `srcs` with an
absolute bound. The claim's selection would be `["b", "c", "d"]`. -/
theorem select_columns_span_duplicates_last_row :
    select_columns [Range.interval ⟨2, 1⟩ ⟨4, 1⟩] clFour =
      .ok ["b".toList, "c".toList, "d".toList, "d".toList] := by
  decide

/-- C4: a full join (no incoming rows) that succeeds emits exactly, for every
item of the left location's index, one row per right-index item sharing its
key — the full per-key cross product, duplicates included — and no row for a
left item whose key has no right match: membership in the output is
characterized by such a pair, and the output length is the sum over left
items of their match counts. -/
theorem full_join_cross_product (cfg : JoinConfig) (rel : JoinKeyRelation)
    (out : JoinResult) (h : RelationJoiner.join cfg rel none = .ok out) :
    ∃ lidx ridx, get_index cfg (rel.left.add (-1) (-1)) = .ok lidx ∧
      get_index cfg (rel.right.add (-1) (-1)) = .ok ridx ∧
      (∀ row, row ∈ out ↔ ∃ litem ∈ lidx.itemsList,
        ∃ ritem ∈ matchItems ridx litem.key,
          row = fullJoinRow (rel.left.add (-1) (-1)).src litem
            (rel.right.add (-1) (-1)).src ritem) ∧
      out.length =
        (lidx.itemsList.map (fun it => (matchItems ridx it.key).length)).sum := by
  unfold RelationJoiner.join full_join at h
  dsimp only at h
  rcases hl : get_index cfg (rel.left.add (-1) (-1)) with e | lidx <;> rw [hl] at h
  · exact absurd h (by simp)
  · rcases hr : get_index cfg (rel.right.add (-1) (-1)) with e | ridx <;> rw [hr] at h
    · exact absurd h (by simp)
    · injection h with h
      subst h
      refine ⟨lidx, ridx, rfl, rfl, ?_, ?_⟩
      all_goals
        have hbody : (fun litem =>
            match ridx.get litem.key with
            | none => []
            | some ritems =>
              let r := JoinItemList.set ⟨[]⟩ ⟨(rel.left.add (-1) (-1)).src, litem⟩
              ritems.map fun ritem =>
                JoinItemList.set r.copy ⟨(rel.right.add (-1) (-1)).src, ritem⟩) =
            (fun litem => (matchItems ridx litem.key).map
              (fullJoinRow (rel.left.add (-1) (-1)).src litem
                (rel.right.add (-1) (-1)).src)) := by
          funext litem
          rcases hg : ridx.get litem.key with _ | ritems
          · simp [matchItems, hg]
          · simp [matchItems, hg, fullJoinRow]
      · intro row
        rw [hbody]
        simp only [List.mem_flatMap, List.mem_map]
        constructor
        · rintro ⟨litem, hli, ritem, hri, hrow⟩
          exact ⟨litem, hli, ritem, hri, hrow.symm⟩
        · rintro ⟨litem, hli, ritem, hri, hrow⟩
          exact ⟨litem, hli, ritem, hri, hrow.symm⟩
      · rw [hbody, List.length_flatMap]
        have hfun : (List.length ∘ fun litem =>
            List.map (fullJoinRow (rel.left.add (-1) (-1)).src litem
              (rel.right.add (-1) (-1)).src) (matchItems ridx litem.key)) =
            fun it => (matchItems ridx it.key).length := by
          funext it
          simp [Function.comp]
        rw [hfun]

/-- C4, witness: two single-column sources with the key `p` duplicated on
both sides produce the four-row cross product. -/
theorem full_join_cross_product_witness :
    RelationJoiner.join cfgDup relA none = .ok outDup ∧
      ∃ lidx ridx, get_index cfgDup (relA.left.add (-1) (-1)) = .ok lidx ∧
        get_index cfgDup (relA.right.add (-1) (-1)) = .ok ridx ∧
        (∀ row, row ∈ outDup ↔ ∃ litem ∈ lidx.itemsList,
          ∃ ritem ∈ matchItems ridx litem.key,
            row = fullJoinRow (relA.left.add (-1) (-1)).src litem
              (relA.right.add (-1) (-1)).src ritem) ∧
        outDup.length =
          (lidx.itemsList.map (fun it => (matchItems ridx it.key).length)).sum :=
  ⟨by decide, full_join_cross_product cfgDup relA outDup (by decide)⟩

/-- C10: joining with an empty join key always fails with the validation
error, producing no row. -/
theorem joiner_rejects_empty_joinkey (cfg : JoinConfig) :
    Joiner.join cfg [] = .error "Join key is empty" := rfl

end PytoolsJoin
